import Mathlib

/-!
Verification of the dtslint core (`src/lint.ts`) against its specification.

The development shallowly embeds the code of `src/lint.ts`:

* version-range resolution (`range`, lines 129-148), over an abstract
  universe of shipped TypeScript versions (the actual list lives in the
  external package `@definitelytyped/typescript-versions`; the spec says
  shipped identifiers are totally ordered, `latest` is above all of them
  and `local` is incomparable);
* the content-policy scanners `testNoTsIgnore` (lines 72-76) and
  `testNoTslintDisables` (lines 77-95), over file text as `List Char`
  (JavaScript `String.prototype.indexOf` and `charAt` are modelled by
  `indexOfFrom` and `charAt`);
* the path policy `normalizePath` / `isTypesVersionPath` (lines 56-68);
* configuration loading `getLintConfig` (lines 101-127);
* the orchestrator `lint` (lines 14-53), with the external tslint rule
  engine and the TypeScript program abstracted as parameters.
-/

/-- The universe of version tags, modelling `TypeScriptVersion` from the
external package `@definitelytyped/typescript-versions`: `shipped` is the
ascending list of shipped release identifiers, `latest` the in-development
release that follows all shipped ones.  The invariants record what the spec
states about tags: shipped identifiers are pairwise distinct, and the two
special tags "local" and `latest` are not among them (nor equal to each
other). -/
structure VersionUniverse where
  shipped : List String
  latest : String
  shipped_nodup : shipped.Nodup
  local_not_shipped : "local" ∉ shipped
  latest_not_shipped : latest ∉ shipped
  latest_ne_local : latest ≠ "local"

/-- JavaScript `Array.prototype.indexOf`, returning `none` for `-1`:
the index of the first occurrence of `a`. -/
def idxOfStr (a : String) : List String → Option Nat
  | [] => none
  | b :: rest => if b = a then some 0 else (idxOfStr a rest).map (fun i => i + 1)

/-- Which `assert` of `range` (src/lint.ts lines 129-148) fails.  Node's
`assert` reports the asserted expression's text, so distinct assert sites
are distinguishable, but two failures through the same site are not:
`maxBelowMin` is the failure of `assert(maxIdx >= minIdx)` on line 146,
which fires both when both tags are shipped in the wrong order and when
`maxVersion` is absent from `shipped` (JavaScript `indexOf` then returns
`-1`, which is below any valid `minIdx`). -/
inductive RangeErr where
  | localMismatch
  | latestMismatch
  | maxIsLocal
  | minNotFound
  | maxBelowMin
deriving DecidableEq, Repr

/-- `range` from src/lint.ts lines 129-148.  `assert` failures become
`Except.error` with the site that failed; JavaScript `slice(minIdx,
maxIdx + 1)` is `drop minIdx` then `take (maxIdx + 1 - minIdx)`. -/
def range (u : VersionUniverse) (minVersion maxVersion : String) :
    Except RangeErr (List String) :=
  if minVersion = "local" then
    if maxVersion = "local" then .ok ["local"] else .error .localMismatch
  else if minVersion = u.latest then
    if maxVersion = u.latest then .ok [u.latest] else .error .latestMismatch
  else if maxVersion = "local" then .error .maxIsLocal
  else
    match idxOfStr minVersion u.shipped with
    | none => .error .minNotFound
    | some minIdx =>
      if maxVersion = u.latest then .ok (u.shipped.drop minIdx ++ [u.latest])
      else
        match idxOfStr maxVersion u.shipped with
        | none => .error .maxBelowMin
        | some maxIdx =>
          if maxIdx < minIdx then .error .maxBelowMin
          else .ok ((u.shipped.drop minIdx).take (maxIdx + 1 - minIdx))

/-- The position of a version tag in the shipped sequence (0 for tags that
are not shipped); the order in which the spec's "strictly increasing" is
read. -/
def shippedPos (u : VersionUniverse) (v : String) : Nat :=
  (idxOfStr v u.shipped).getD 0

/-- A small concrete universe used by witnesses: three shipped versions in
ascending order and a later `latest`. -/
def demoUniverse : VersionUniverse where
  shipped := ["4.0", "4.1", "4.2"]
  latest := "4.3"
  shipped_nodup := by decide
  local_not_shipped := by decide
  latest_not_shipped := by decide
  latest_ne_local := by decide

theorem idxOfStr_some_lt {a : String} : ∀ {l : List String} {i : Nat},
    idxOfStr a l = some i → i < l.length := by
  intro l
  induction l with
  | nil => intro i h; simp [idxOfStr] at h
  | cons b rest ih =>
    intro i h
    by_cases hb : b = a
    · simp [idxOfStr, hb] at h
      simp only [List.length_cons]
      omega
    · simp [idxOfStr, hb] at h
      obtain ⟨j, hj, rfl⟩ := h
      have := ih hj
      simp only [List.length_cons]
      omega

theorem idxOfStr_some_getElem {a : String} : ∀ {l : List String} {i : Nat},
    idxOfStr a l = some i → l.get? i = some a := by
  intro l
  induction l with
  | nil => intro i h; simp [idxOfStr] at h
  | cons b rest ih =>
    intro i h
    by_cases hb : b = a
    · simp [idxOfStr, hb] at h
      subst h
      simp [hb]
    · simp [idxOfStr, hb] at h
      obtain ⟨j, hj, rfl⟩ := h
      simp only [List.get?_cons_succ]
      exact ih hj

theorem idxOfStr_some_mem {a : String} {l : List String} {i : Nat}
    (h : idxOfStr a l = some i) : a ∈ l := by
  have := idxOfStr_some_getElem h
  exact List.get?_mem this

theorem idxOfStr_getElem_of_nodup : ∀ {l : List String}, l.Nodup →
    ∀ {i : Nat} (h : i < l.length), idxOfStr (l.get ⟨i, h⟩) l = some i := by
  intro l
  induction l with
  | nil => intro _ i h; simp at h
  | cons b rest ih =>
    intro hnd i h
    match i with
    | 0 => simp [idxOfStr]
    | Nat.succ j =>
      have hj : j < rest.length := by
        simp only [List.length_cons] at h
        omega
      have hmem : rest.get ⟨j, hj⟩ ∈ rest := List.get_mem rest j hj
      have hb : b ≠ rest.get ⟨j, hj⟩ := by
        intro he
        exact (List.nodup_cons.1 hnd).1 (he ▸ hmem)
      have hrec := ih (List.nodup_cons.1 hnd).2 hj
      have hgc : (b :: rest).get ⟨j + 1, h⟩ = rest.get ⟨j, hj⟩ := rfl
      rw [hgc]
      simp only [List.get_eq_getElem] at hb hrec ⊢
      simp [idxOfStr, hb, hrec]

/-- C1: for min and max both drawn from the shipped sequence with min's
position at most max's, `range` succeeds and returns exactly the inclusive
contiguous slice of the shipped sequence from min to max: it begins at min,
ends at max, is duplicate-free, is an infix of the shipped sequence, and is
strictly increasing in shipped position. -/
theorem range_ok_slice (u : VersionUniverse) (minV maxV : String) (mi xi : Nat)
    (hm : idxOfStr minV u.shipped = some mi)
    (hx : idxOfStr maxV u.shipped = some xi)
    (hle : mi ≤ xi) :
    ∃ l, range u minV maxV = .ok l
      ∧ l = (u.shipped.drop mi).take (xi + 1 - mi)
      ∧ l.head? = some minV
      ∧ l.getLast? = some maxV
      ∧ l.Nodup
      ∧ l <:+: u.shipped
      ∧ List.Pairwise (fun a b => shippedPos u a < shippedPos u b) l := by
  have hminmem : minV ∈ u.shipped := idxOfStr_some_mem hm
  have hmaxmem : maxV ∈ u.shipped := idxOfStr_some_mem hx
  have hm1 : minV ≠ "local" := fun he => u.local_not_shipped (he ▸ hminmem)
  have hm2 : minV ≠ u.latest := fun he => u.latest_not_shipped (he ▸ hminmem)
  have hx1 : maxV ≠ "local" := fun he => u.local_not_shipped (he ▸ hmaxmem)
  have hx2 : maxV ≠ u.latest := fun he => u.latest_not_shipped (he ▸ hmaxmem)
  have hmlt : mi < u.shipped.length := idxOfStr_some_lt hm
  have hxlt : xi < u.shipped.length := idxOfStr_some_lt hx
  have hmget : u.shipped[mi]? = some minV := by
    have := idxOfStr_some_getElem hm
    simp only [List.get?_eq_getElem?] at this
    exact this
  have hxget : u.shipped[xi]? = some maxV := by
    have := idxOfStr_some_getElem hx
    simp only [List.get?_eq_getElem?] at this
    exact this
  have hnotlt : ¬ xi < mi := by omega
  have hrange : range u minV maxV
      = .ok ((u.shipped.drop mi).take (xi + 1 - mi)) := by
    simp only [range, if_neg hm1, if_neg hm2, if_neg hx1, hm, if_neg hx2, hx,
      if_neg hnotlt]
  have hlen : ((u.shipped.drop mi).take (xi + 1 - mi)).length = xi + 1 - mi := by
    simp only [List.length_take, List.length_drop]
    omega
  have hget : ∀ j, j < xi + 1 - mi →
      ((u.shipped.drop mi).take (xi + 1 - mi))[j]? = u.shipped[mi + j]? := by
    intro j hjlt
    rw [List.getElem?_take_of_lt hjlt, List.getElem?_drop]
  have hinfix : ((u.shipped.drop mi).take (xi + 1 - mi)) <:+: u.shipped :=
    (List.take_prefix _ _).isInfix.trans (List.drop_suffix _ _).isInfix
  refine ⟨_, hrange, rfl, ?_, ?_, ?_, hinfix, ?_⟩
  · rw [List.head?_eq_getElem?, hget 0 (by omega)]
    simpa using hmget
  · rw [List.getLast?_eq_getElem?, hlen]
    have h1 : xi + 1 - mi - 1 = xi - mi := by omega
    rw [h1, hget (xi - mi) (by omega)]
    have h2 : mi + (xi - mi) = xi := by omega
    rw [h2, hxget]
  · exact u.shipped_nodup.sublist hinfix.sublist
  · rw [List.pairwise_iff_get]
    intro a b hab
    have ha : a.1 < xi + 1 - mi := by have := a.2; omega
    have hb : b.1 < xi + 1 - mi := by have := b.2; omega
    have hgeta : ((u.shipped.drop mi).take (xi + 1 - mi))[a.1]? = u.shipped[mi + a.1]? :=
      hget a.1 ha
    have hgetb : ((u.shipped.drop mi).take (xi + 1 - mi))[b.1]? = u.shipped[mi + b.1]? :=
      hget b.1 hb
    have halt : mi + a.1 < u.shipped.length := by omega
    have hblt : mi + b.1 < u.shipped.length := by omega
    have hea : ((u.shipped.drop mi).take (xi + 1 - mi)).get a
        = u.shipped.get ⟨mi + a.1, halt⟩ := by
      have := hgeta
      rw [List.getElem?_eq_getElem a.2, List.getElem?_eq_getElem halt] at this
      simpa [List.get_eq_getElem] using this
    have heb : ((u.shipped.drop mi).take (xi + 1 - mi)).get b
        = u.shipped.get ⟨mi + b.1, hblt⟩ := by
      have := hgetb
      rw [List.getElem?_eq_getElem b.2, List.getElem?_eq_getElem hblt] at this
      simpa [List.get_eq_getElem] using this
    rw [hea, heb]
    unfold shippedPos
    rw [idxOfStr_getElem_of_nodup u.shipped_nodup halt,
      idxOfStr_getElem_of_nodup u.shipped_nodup hblt]
    simp only [Option.getD_some]
    omega

theorem range_ok_slice_witness :
    idxOfStr "4.0" demoUniverse.shipped = some 0
  ∧ idxOfStr "4.2" demoUniverse.shipped = some 2
  ∧ (∃ l, range demoUniverse "4.0" "4.2" = .ok l
      ∧ l = (demoUniverse.shipped.drop 0).take (2 + 1 - 0)
      ∧ l.head? = some "4.0"
      ∧ l.getLast? = some "4.2"
      ∧ l.Nodup
      ∧ l <:+: demoUniverse.shipped
      ∧ List.Pairwise (fun a b => shippedPos demoUniverse a < shippedPos demoUniverse b) l) :=
  ⟨by decide, by decide,
    range_ok_slice demoUniverse "4.0" "4.2" 0 2 (by decide) (by decide) (by decide)⟩

/-- C7: the two degenerate ranges: latest-to-latest resolves to the single
latest entry, local-to-local to the single local entry. -/
theorem range_latest_and_local_singleton (u : VersionUniverse) :
    range u u.latest u.latest = .ok [u.latest]
  ∧ range u "local" "local" = .ok ["local"] := by
  constructor
  · unfold range
    rw [if_neg u.latest_ne_local, if_pos rfl, if_pos rfl]
  · unfold range
    rw [if_pos rfl, if_pos rfl]

theorem range_latest_and_local_singleton_witness :
    range demoUniverse demoUniverse.latest demoUniverse.latest = .ok [demoUniverse.latest]
  ∧ range demoUniverse "local" "local" = .ok ["local"] :=
  range_latest_and_local_singleton demoUniverse

/-- C4 (amended): every malformed range makes `range` fail, before any list
is produced: a "local" endpoint paired with anything else fails through the
matching assertion; an absent min tag fails through its own assertion
(`minNotFound`, the code's `assert(minIdx >= 0)`); two shipped tags in the
wrong order fail through `assert(maxIdx >= minIdx)` (`maxBelowMin`); and an
absent max tag fails through that same assertion, not through a distinct
unknown-version error. -/
theorem range_error_cases (u : VersionUniverse) (minV maxV : String) :
    (minV = "local" → maxV ≠ "local" → range u minV maxV = .error .localMismatch)
  ∧ (minV ≠ "local" → minV = u.latest → maxV ≠ u.latest →
      range u minV maxV = .error .latestMismatch)
  ∧ (minV ≠ "local" → minV ≠ u.latest → maxV = "local" →
      range u minV maxV = .error .maxIsLocal)
  ∧ (minV ≠ "local" → minV ≠ u.latest → maxV ≠ "local" →
      idxOfStr minV u.shipped = none → range u minV maxV = .error .minNotFound)
  ∧ (∀ mi, idxOfStr minV u.shipped = some mi → maxV ≠ u.latest → maxV ≠ "local" →
      idxOfStr maxV u.shipped = none → range u minV maxV = .error .maxBelowMin)
  ∧ (∀ mi xi, idxOfStr minV u.shipped = some mi → idxOfStr maxV u.shipped = some xi →
      xi < mi → range u minV maxV = .error .maxBelowMin)
  ∧ (∀ e, range u minV maxV = .error e → ∀ l, range u minV maxV ≠ .ok l) := by
  refine ⟨?_, ?_, ?_, ?_, ?_, ?_, ?_⟩
  · intro h1 h2
    simp only [range, if_pos h1, if_neg h2]
  · intro h1 h2 h3
    simp only [range, if_neg h1, if_pos h2, if_neg h3]
  · intro h1 h2 h3
    simp only [range, if_neg h1, if_neg h2, if_pos h3]
  · intro h1 h2 h3 h4
    simp only [range, if_neg h1, if_neg h2, if_neg h3, h4]
  · intro mi hm h2 h3 h4
    have hmem : minV ∈ u.shipped := idxOfStr_some_mem hm
    have h1 : minV ≠ "local" := fun he => u.local_not_shipped (he ▸ hmem)
    have h5 : minV ≠ u.latest := fun he => u.latest_not_shipped (he ▸ hmem)
    simp only [range, if_neg h1, if_neg h5, if_neg h3, hm, if_neg h2, h4]
  · intro mi xi hm hx hlt
    have hmmem : minV ∈ u.shipped := idxOfStr_some_mem hm
    have hxmem : maxV ∈ u.shipped := idxOfStr_some_mem hx
    have h1 : minV ≠ "local" := fun he => u.local_not_shipped (he ▸ hmmem)
    have h2 : minV ≠ u.latest := fun he => u.latest_not_shipped (he ▸ hmmem)
    have h3 : maxV ≠ "local" := fun he => u.local_not_shipped (he ▸ hxmem)
    have h4 : maxV ≠ u.latest := fun he => u.latest_not_shipped (he ▸ hxmem)
    simp only [range, if_neg h1, if_neg h2, if_neg h3, hm, if_neg h4, hx, if_pos hlt]
  · intro e he l hl
    rw [he] at hl
    exact Except.noConfusion hl

theorem range_error_cases_witness :
    ((("local" : String) = "local" → ("4.0" : String) ≠ "local" →
        range demoUniverse "local" "4.0" = .error .localMismatch)
      ∧ (("local" : String) ≠ "local" → ("local" : String) = demoUniverse.latest →
          ("4.0" : String) ≠ demoUniverse.latest →
          range demoUniverse "local" "4.0" = .error .latestMismatch)
      ∧ (("local" : String) ≠ "local" → ("local" : String) ≠ demoUniverse.latest →
          ("4.0" : String) = "local" → range demoUniverse "local" "4.0" = .error .maxIsLocal)
      ∧ (("local" : String) ≠ "local" → ("local" : String) ≠ demoUniverse.latest →
          ("4.0" : String) ≠ "local" → idxOfStr "local" demoUniverse.shipped = none →
          range demoUniverse "local" "4.0" = .error .minNotFound)
      ∧ (∀ mi, idxOfStr "local" demoUniverse.shipped = some mi →
          ("4.0" : String) ≠ demoUniverse.latest → ("4.0" : String) ≠ "local" →
          idxOfStr "4.0" demoUniverse.shipped = none →
          range demoUniverse "local" "4.0" = .error .maxBelowMin)
      ∧ (∀ mi xi, idxOfStr "local" demoUniverse.shipped = some mi →
          idxOfStr "4.0" demoUniverse.shipped = some xi → xi < mi →
          range demoUniverse "local" "4.0" = .error .maxBelowMin)
      ∧ (∀ e, range demoUniverse "local" "4.0" = .error e →
          ∀ l, range demoUniverse "local" "4.0" ≠ .ok l))
    ∧ range demoUniverse "local" "4.0" = .error .localMismatch :=
  ⟨range_error_cases demoUniverse "local" "4.0",
    (range_error_cases demoUniverse "local" "4.0").1 rfl (by decide)⟩

/-- C4's counterexample to distinctness: a max tag absent from the shipped
sequence ("9.9") fails through exactly the same error as an inverted range
of two shipped tags, so there is no unknown-version failure distinct from
the invalid-range failure for the max endpoint. -/
theorem range_unknown_max_not_distinct :
    idxOfStr "9.9" demoUniverse.shipped = none
  ∧ range demoUniverse "4.0" "9.9" = .error .maxBelowMin
  ∧ range demoUniverse "4.1" "4.0" = .error .maxBelowMin :=
  ⟨rfl, rfl, rfl⟩

/-- Helper for `indexOfFrom`: scans the suffix of the text that starts at
absolute position `i`, returning the absolute position of the first match. -/
def indexOfFromAux (sub : List Char) : List Char → Nat → Option Nat
  | [], i => if sub.isEmpty then some i else none
  | c :: rest, i =>
    if sub.isPrefixOf (c :: rest) then some i else indexOfFromAux sub rest (i + 1)

/-- JavaScript `text.indexOf(sub, start)` for a non-empty search string,
returning `none` for `-1`: the position of the first occurrence of `sub` at
or after `start`. -/
def indexOfFrom (sub text : List Char) (start : Nat) : Option Nat :=
  indexOfFromAux sub (text.drop start) start

/-- `sub` occurs in `text` at position `p`. -/
def occursAt (sub text : List Char) (p : Nat) : Prop :=
  sub <+: text.drop p

instance (sub text : List Char) (p : Nat) : Decidable (occursAt sub text p) :=
  inferInstanceAs (Decidable (sub <+: text.drop p))

/-- JavaScript `text.charAt(i)`, with `none` for the empty string returned
on an out-of-range index. -/
def charAt (text : List Char) (i : Nat) : Option Char :=
  text[i]?

/-- The error record of src/lint.ts line 71: a character position and a
message. -/
structure Err where
  pos : Nat
  message : String
deriving DecidableEq, Repr

/-- The banned substring of `testNoTsIgnore` (src/lint.ts line 73). -/
def tsIgnoreStr : List Char := "ts-ignore".data

/-- The fixed message of `testNoTsIgnore` (src/lint.ts line 75). -/
def tsIgnoreMessage : String := "'ts-ignore' is forbidden."

/-- `testNoTsIgnore` from src/lint.ts lines 72-76: the first occurrence of
"ts-ignore" anywhere in the text is a violation. -/
def testNoTsIgnore (text : List Char) : Option Err :=
  match indexOfFrom tsIgnoreStr text 0 with
  | none => none
  | some pos => some ⟨pos, tsIgnoreMessage⟩

/-- The banned substring of `testNoTslintDisables` (src/lint.ts line 78). -/
def tslintDisableStr : List Char := "tslint:disable".data

/-- The fixed message of `testNoTslintDisables` (src/lint.ts lines 89-90,
with the source's own missing quote before `tslint:disable-line`). -/
def tslintDisableMessage : String :=
  "'tslint:disable' is forbidden. ('tslint:disable:rulename', tslint:disable-line' and 'tslint:disable-next-line' are allowed.)"

theorem indexOfFromAux_some {sub : List Char} (hsub : sub ≠ []) :
    ∀ (t : List Char) (i p : Nat), indexOfFromAux sub t i = some p →
      i ≤ p ∧ p - i ≤ t.length ∧ sub <+: t.drop (p - i)
        ∧ ∀ d, d < p - i → ¬ sub <+: t.drop d := by
  intro t
  induction t with
  | nil =>
    intro i p h
    simp [indexOfFromAux, List.isEmpty_iff, hsub] at h
  | cons c rest ih =>
    intro i p h
    by_cases hpre : sub.isPrefixOf (c :: rest)
    · simp only [indexOfFromAux, if_pos hpre, Option.some.injEq] at h
      subst h
      refine ⟨Nat.le_refl _, by omega, ?_, ?_⟩
      · simp only [Nat.sub_self, List.drop_zero]
        exact List.isPrefixOf_iff_prefix.1 hpre
      · intro d hd
        omega
    · simp only [indexOfFromAux, if_neg hpre] at h
      obtain ⟨h1, h2, h3, h4⟩ := ih (i + 1) p h
      have hip : i < p := by omega
      refine ⟨by omega, ?_, ?_, ?_⟩
      · simp only [List.length_cons]
        omega
      · have : (c :: rest).drop (p - i) = rest.drop (p - (i + 1)) := by
          have hpi : p - i = (p - (i + 1)) + 1 := by omega
          rw [hpi]
          rfl
        rw [this]
        exact h3
      · intro d hd
        match d with
        | 0 =>
          simp only [List.drop_zero]
          intro hcon
          exact hpre (List.isPrefixOf_iff_prefix.2 hcon)
        | Nat.succ e =>
          have he : e < p - (i + 1) := by omega
          have : (c :: rest).drop (e + 1) = rest.drop e := rfl
          rw [this]
          exact h4 e he

theorem indexOfFromAux_none {sub : List Char} (hsub : sub ≠ []) :
    ∀ (t : List Char) (i : Nat), indexOfFromAux sub t i = none →
      ∀ d, ¬ sub <+: t.drop d := by
  intro t
  induction t with
  | nil =>
    intro i _ d hcon
    rw [List.drop_nil] at hcon
    exact hsub (List.prefix_nil.1 hcon)
  | cons c rest ih =>
    intro i h d
    by_cases hpre : sub.isPrefixOf (c :: rest)
    · simp [indexOfFromAux, hpre] at h
    · simp only [indexOfFromAux, if_neg hpre] at h
      match d with
      | 0 =>
        simp only [List.drop_zero]
        intro hcon
        exact hpre (List.isPrefixOf_iff_prefix.2 hcon)
      | Nat.succ e =>
        have : (c :: rest).drop (e + 1) = rest.drop e := rfl
        rw [this]
        exact ih (i + 1) h e

theorem indexOfFrom_some {sub text : List Char} {start p : Nat} (hsub : sub ≠ [])
    (h : indexOfFrom sub text start = some p) :
    start ≤ p ∧ p + sub.length ≤ text.length ∧ occursAt sub text p
      ∧ ∀ q, start ≤ q → q < p → ¬ occursAt sub text q := by
  obtain ⟨h1, h2, h3, h4⟩ := indexOfFromAux_some hsub (text.drop start) start p h
  have hdd : ∀ d : Nat, (text.drop start).drop d = text.drop (start + d) := by
    intro d
    rw [List.drop_drop]
  have hocc : occursAt sub text p := by
    unfold occursAt
    have := h3
    rw [hdd (p - start)] at this
    have he : start + (p - start) = p := by omega
    rwa [he] at this
  have hlen : p + sub.length ≤ text.length := by
    have hle : sub.length ≤ (text.drop p).length := hocc.length_le
    simp only [List.length_drop] at hle
    have hsublen : 0 < sub.length := List.length_pos.2 hsub
    omega
  refine ⟨h1, hlen, hocc, ?_⟩
  intro q hq1 hq2 hcon
  have hd : q - start < p - start := by omega
  have := h4 (q - start) hd
  rw [hdd (q - start)] at this
  have he : start + (q - start) = q := by omega
  rw [he] at this
  exact this hcon

theorem indexOfFrom_none {sub text : List Char} {start : Nat} (hsub : sub ≠ [])
    (h : indexOfFrom sub text start = none) :
    ∀ q, start ≤ q → ¬ occursAt sub text q := by
  intro q hq hcon
  have hd := indexOfFromAux_none hsub (text.drop start) start h (q - start)
  rw [List.drop_drop] at hd
  have he : start + (q - start) = q := by omega
  rw [he] at hd
  exact hd hcon

theorem indexOfFrom_eq_some_of_first {sub text : List Char} {start p : Nat}
    (hsub : sub ≠ []) (hp : occursAt sub text p) (hsp : start ≤ p)
    (hfirst : ∀ q, start ≤ q → q < p → ¬ occursAt sub text q) :
    indexOfFrom sub text start = some p := by
  match hio : indexOfFrom sub text start with
  | none => exact absurd hp (indexOfFrom_none hsub hio p hsp)
  | some r =>
    obtain ⟨h1, h2, h3, h4⟩ := indexOfFrom_some hsub hio
    have hrp : ¬ r < p := fun hlt => hfirst r h1 hlt h3
    have hpr : ¬ p < r := fun hlt => h4 p hsp hlt hp
    have : r = p := by omega
    rw [this]

theorem tslintDisableStr_ne_nil : tslintDisableStr ≠ [] := by decide

/-- The loop of `testNoTslintDisables` (src/lint.ts lines 81-94), with the
mutable `lastIndex` as an argument: find the next occurrence of
"tslint:disable" at or after `lastIndex`; report it unless the character
right after it is "-" or ":", in which case resume just past it.
Termination: every found occurrence starts at or after `lastIndex` and ends
within the text, so `lastIndex` strictly grows toward `text.length`. -/
def testNoTslintDisablesFrom (text : List Char) (lastIndex : Nat) : Option Err :=
  match h : indexOfFrom tslintDisableStr text lastIndex with
  | none => none
  | some pos =>
    if charAt text (pos + tslintDisableStr.length) ≠ some '-'
        ∧ charAt text (pos + tslintDisableStr.length) ≠ some ':' then
      some ⟨pos, tslintDisableMessage⟩
    else
      testNoTslintDisablesFrom text (pos + tslintDisableStr.length)
termination_by text.length - lastIndex
decreasing_by
  obtain ⟨h1, h2, _, _⟩ := indexOfFrom_some tslintDisableStr_ne_nil h
  have : 0 < tslintDisableStr.length := by decide
  omega

/-- `testNoTslintDisables` from src/lint.ts lines 77-95, starting the scan
with `lastIndex = 0`. -/
def testNoTslintDisables (text : List Char) : Option Err :=
  testNoTslintDisablesFrom text 0

/-- An occurrence of "tslint:disable" at `p` that is immediately followed by
"-" or ":": the allowed, qualified forms. -/
def qualifiedAt (text : List Char) (p : Nat) : Prop :=
  charAt text (p + tslintDisableStr.length) = some '-'
    ∨ charAt text (p + tslintDisableStr.length) = some ':'

/-- A bare occurrence of "tslint:disable" at `p`: not followed by "-" or
":", hence forbidden. -/
def bareTslintDisableAt (text : List Char) (p : Nat) : Prop :=
  occursAt tslintDisableStr text p ∧ ¬ qualifiedAt text p

instance (text : List Char) (p : Nat) : Decidable (qualifiedAt text p) :=
  inferInstanceAs (Decidable (_ ∨ _))

instance (text : List Char) (p : Nat) : Decidable (bareTslintDisableAt text p) :=
  inferInstanceAs (Decidable (_ ∧ _))

theorem tslintDisableStr_no_border :
    ∀ s, s < tslintDisableStr.length → 1 ≤ s →
      ¬ (tslintDisableStr.drop s <+: tslintDisableStr) := by decide

theorem tslintDisable_no_overlap {text : List Char} {a b : Nat}
    (ha : occursAt tslintDisableStr text a) (hb : occursAt tslintDisableStr text b)
    (hab : a < b) : a + tslintDisableStr.length ≤ b := by
  by_contra hcon
  have hs1 : 1 ≤ b - a := by omega
  have hs2 : b - a < tslintDisableStr.length := by omega
  obtain ⟨r, hr⟩ := ha
  have hdb : text.drop b = tslintDisableStr.drop (b - a) ++ r := by
    have h1 : text.drop b = (text.drop a).drop (b - a) := by
      rw [List.drop_drop]
      congr 1
      omega
    rw [h1, ← hr, List.drop_append_of_le_length (by omega)]
  rw [occursAt, hdb] at hb
  have hp1 : tslintDisableStr.drop (b - a) <+: tslintDisableStr.drop (b - a) ++ r :=
    List.prefix_append _ _
  have hlen : (tslintDisableStr.drop (b - a)).length ≤ tslintDisableStr.length := by
    simp only [List.length_drop]
    omega
  exact tslintDisableStr_no_border (b - a) hs2 hs1
    (List.prefix_of_prefix_length_le hp1 hb hlen)

theorem testNoTslintDisablesFrom_none (text : List Char) :
    ∀ (n i : Nat), text.length - i ≤ n →
      (∀ p, i ≤ p → occursAt tslintDisableStr text p → qualifiedAt text p) →
      testNoTslintDisablesFrom text i = none := by
  intro n
  induction n with
  | zero =>
    intro i hn _
    rw [testNoTslintDisablesFrom.eq_def]
    split
    · rfl
    · next pos hio =>
      obtain ⟨h1, h2, _, _⟩ := indexOfFrom_some tslintDisableStr_ne_nil hio
      have hpos : 0 < tslintDisableStr.length := by decide
      omega
  | succ m ih =>
    intro i hn hq
    rw [testNoTslintDisablesFrom.eq_def]
    split
    · rfl
    · next pos hio =>
      obtain ⟨h1, h2, h3, _⟩ := indexOfFrom_some tslintDisableStr_ne_nil hio
      have hqual : qualifiedAt text pos := hq pos h1 h3
      have hcond : ¬ (charAt text (pos + tslintDisableStr.length) ≠ some '-'
          ∧ charAt text (pos + tslintDisableStr.length) ≠ some ':') := by
        unfold qualifiedAt at hqual
        tauto
      rw [if_neg hcond]
      apply ih
      · have hpos : 0 < tslintDisableStr.length := by decide
        omega
      · intro p hp hop
        exact hq p (by omega) hop

theorem testNoTslintDisablesFrom_bare (text : List Char) :
    ∀ (n i p : Nat), text.length - i ≤ n → i ≤ p → bareTslintDisableAt text p →
      (∀ q, i ≤ q → q < p → occursAt tslintDisableStr text q → qualifiedAt text q) →
      testNoTslintDisablesFrom text i = some ⟨p, tslintDisableMessage⟩ := by
  intro n
  induction n with
  | zero =>
    intro i p hn hip hbare _
    exfalso
    have hle : tslintDisableStr.length ≤ (text.drop p).length := hbare.1.length_le
    simp only [List.length_drop] at hle
    have hpos : (0:Nat) < tslintDisableStr.length := by decide
    omega
  | succ m ih =>
    intro i p hn hip hbare hq
    rw [testNoTslintDisablesFrom.eq_def]
    split
    · next hio => exact absurd hbare.1 (indexOfFrom_none tslintDisableStr_ne_nil hio p hip)
    · next pos hio =>
      obtain ⟨h1, h2, h3, h4⟩ := indexOfFrom_some tslintDisableStr_ne_nil hio
      have hposle : pos ≤ p := by
        by_contra hgt
        exact h4 p hip (by omega) hbare.1
      by_cases hpp : pos = p
      · subst hpp
        have hcond : charAt text (pos + tslintDisableStr.length) ≠ some '-'
            ∧ charAt text (pos + tslintDisableStr.length) ≠ some ':' := by
          have hnq := hbare.2
          unfold qualifiedAt at hnq
          tauto
        rw [if_pos hcond]
      · have hposlt : pos < p := by omega
        have hqual : qualifiedAt text pos := hq pos h1 hposlt h3
        have hcond : ¬ (charAt text (pos + tslintDisableStr.length) ≠ some '-'
            ∧ charAt text (pos + tslintDisableStr.length) ≠ some ':') := by
          unfold qualifiedAt at hqual
          tauto
        rw [if_neg hcond]
        have hadv : pos + tslintDisableStr.length ≤ p :=
          tslintDisable_no_overlap h3 hbare.1 hposlt
        apply ih
        · have hpos : 0 < tslintDisableStr.length := by decide
          omega
        · exact hadv
        · exact hbare
        · intro q hq1 hq2 hoq
          exact hq q (by omega) hq2 hoq

/-- C3: the lint-suppression scan never flags qualified occurrences of
"tslint:disable" (those immediately followed by "-" or ":", as in
`tslint:disable-next-line` or `tslint:disable:ruleName`): a text all of
whose occurrences are qualified yields no violation; and the scan continues
past any number of qualified occurrences to flag the first bare occurrence,
at its exact position, with the fixed message. -/
theorem testNoTslintDisables_qualified_vs_bare (text : List Char) :
    ((∀ p, occursAt tslintDisableStr text p → qualifiedAt text p) →
      testNoTslintDisables text = none)
  ∧ (∀ p, bareTslintDisableAt text p →
      (∀ q, q < p → ¬ bareTslintDisableAt text q) →
      testNoTslintDisables text = some ⟨p, tslintDisableMessage⟩) := by
  constructor
  · intro hq
    exact testNoTslintDisablesFrom_none text text.length 0 (by omega)
      (fun p _ h => hq p h)
  · intro p hbare hfirst
    apply testNoTslintDisablesFrom_bare text text.length 0 p (by omega)
      (Nat.zero_le _) hbare
    intro q _ hq2 hoq
    by_contra hnq
    exact hfirst q hq2 ⟨hoq, hnq⟩

/-- C9: each iteration of the `testNoTslintDisables` loop either returns,
or recurses with the search start strictly advanced past the end of the
matched occurrence (which itself ends within the text), so the scan
terminates on every finite text; accordingly `testNoTslintDisablesFrom` is
defined by well-founded recursion on `text.length - lastIndex` and is a
total function. -/
theorem testNoTslintDisablesFrom_step (text : List Char) (i : Nat) :
    (indexOfFrom tslintDisableStr text i = none
      ∧ testNoTslintDisablesFrom text i = none)
  ∨ (∃ pos, indexOfFrom tslintDisableStr text i = some pos
      ∧ i ≤ pos ∧ i < pos + tslintDisableStr.length
      ∧ pos + tslintDisableStr.length ≤ text.length
      ∧ (testNoTslintDisablesFrom text i = some ⟨pos, tslintDisableMessage⟩
        ∨ testNoTslintDisablesFrom text i
            = testNoTslintDisablesFrom text (pos + tslintDisableStr.length))) := by
  match hio : indexOfFrom tslintDisableStr text i with
  | none =>
    left
    refine ⟨rfl, ?_⟩
    rw [testNoTslintDisablesFrom.eq_def]
    split
    · rfl
    · next pos hio2 =>
      rw [hio] at hio2
      exact Option.noConfusion hio2
  | some pos =>
    right
    obtain ⟨h1, h2, _, _⟩ := indexOfFrom_some tslintDisableStr_ne_nil hio
    have hl : (0:Nat) < tslintDisableStr.length := by decide
    refine ⟨pos, rfl, h1, by omega, h2, ?_⟩
    rw [testNoTslintDisablesFrom.eq_def]
    split
    · next hio2 =>
      rw [hio] at hio2
      exact Option.noConfusion hio2
    · next pos2 hio2 =>
      rw [hio] at hio2
      injection hio2 with hpp
      subst hpp
      by_cases hcond : charAt text (pos + tslintDisableStr.length) ≠ some '-'
          ∧ charAt text (pos + tslintDisableStr.length) ≠ some ':'
      · rw [if_pos hcond]
        left
        rfl
      · rw [if_neg hcond]
        right
        rfl

theorem tsIgnoreStr_ne_nil : tsIgnoreStr ≠ [] := by decide

theorem testNoTsIgnore_eq_some {text : List Char} {p : Nat}
    (hp : occursAt tsIgnoreStr text p)
    (hfirst : ∀ q, q < p → ¬ occursAt tsIgnoreStr text q) :
    testNoTsIgnore text = some ⟨p, tsIgnoreMessage⟩ := by
  unfold testNoTsIgnore
  rw [indexOfFrom_eq_some_of_first tsIgnoreStr_ne_nil hp (Nat.zero_le _)
    (fun q _ hq2 => hfirst q hq2)]

/-- The per-file content-policy check of the orchestrator (src/lint.ts line
37): `testNoTsIgnore(text) || testNoTslintDisables(text)`, the first
scanner's result winning when it is defined. -/
def scanText (text : List Char) : Option Err :=
  match testNoTsIgnore text with
  | some e => some e
  | none => testNoTslintDisables text

/-- C10: on a text containing both a "ts-ignore" occurrence and a bare
"tslint:disable" occurrence, the violation produced by the per-file check
is the ts-ignore one (at the first "ts-ignore" position, with the ts-ignore
message), regardless of which of the two occurrences comes first in the
text: the compiler-suppression scan runs to completion before the
lint-suppression scan is consulted. -/
theorem scanText_tsIgnore_priority (text : List Char) (p q : Nat)
    (hp : occursAt tsIgnoreStr text p)
    (hq : bareTslintDisableAt text q) :
    ∃ r, r ≤ p ∧ occursAt tsIgnoreStr text r
      ∧ testNoTsIgnore text = some ⟨r, tsIgnoreMessage⟩
      ∧ scanText text = some ⟨r, tsIgnoreMessage⟩ := by
  match hio : indexOfFrom tsIgnoreStr text 0 with
  | none => exact absurd hp (indexOfFrom_none tsIgnoreStr_ne_nil hio p (Nat.zero_le _))
  | some r =>
    obtain ⟨_, _, h3, h4⟩ := indexOfFrom_some tsIgnoreStr_ne_nil hio
    have hrp : r ≤ p := by
      by_contra hgt
      exact h4 p (Nat.zero_le _) (by omega) hp
    have hti : testNoTsIgnore text = some ⟨r, tsIgnoreMessage⟩ := by
      unfold testNoTsIgnore
      rw [hio]
    refine ⟨r, hrp, h3, hti, ?_⟩
    unfold scanText
    rw [hti]

theorem scanText_tsIgnore_priority_witness :
    occursAt tsIgnoreStr "tslint:disable then ts-ignore".data 20
  ∧ bareTslintDisableAt "tslint:disable then ts-ignore".data 0
  ∧ (∃ r, r ≤ 20 ∧ occursAt tsIgnoreStr "tslint:disable then ts-ignore".data r
      ∧ testNoTsIgnore "tslint:disable then ts-ignore".data = some ⟨r, tsIgnoreMessage⟩
      ∧ scanText "tslint:disable then ts-ignore".data = some ⟨r, tsIgnoreMessage⟩) :=
  ⟨by decide, by decide,
    scanText_tsIgnore_priority "tslint:disable then ts-ignore".data 20 0
      (by decide) (by decide)⟩

theorem char_toNat_ofNat {n : Nat} (h : n.isValidChar) : (Char.ofNat n).toNat = n := by
  rw [Char.ofNat, dif_pos h]
  rfl

theorem isLower_toNat_bounds (c : Char) (h : c.isLower = true) :
    97 ≤ c.toNat ∧ c.toNat ≤ 122 := by
  simp only [Char.isLower, Bool.and_eq_true, decide_eq_true_eq] at h
  obtain ⟨h1, h2⟩ := h
  have h1x : (97:UInt32) ≤ c.val := h1
  have h2x : c.val ≤ (122:UInt32) := h2
  rw [UInt32.le_def, BitVec.le_def] at h1x h2x
  exact ⟨h1x, h2x⟩

theorem toUpper_toNat_of_isLower (c : Char) (h : c.isLower = true) :
    (c.toUpper).toNat = c.toNat - 32 := by
  obtain ⟨h1, h2⟩ := isLower_toNat_bounds c h
  rw [Char.toUpper, if_pos ⟨h1, h2⟩]
  exact char_toNat_ofNat (Or.inl (by omega))

theorem isLower_false_of_toNat_lt (x : Char) (h : x.toNat < 97) :
    x.isLower = false := by
  cases hx : x.isLower
  · rfl
  · obtain ⟨h1, _⟩ := isLower_toNat_bounds x hx
    omega

theorem toUpper_not_isLower (c : Char) (h : c.isLower = true) :
    (c.toUpper).isLower = false := by
  apply isLower_false_of_toNat_lt
  rw [toUpper_toNat_of_isLower c h]
  obtain ⟨_, h2⟩ := isLower_toNat_bounds c h
  omega

theorem ne_of_toNat_ne {a b : Char} (h : a.toNat ≠ b.toNat) : a ≠ b :=
  fun he => h (congrArg Char.toNat he)

theorem isLower_ne_backslash (c : Char) (h : c.isLower = true) : c ≠ '\\' := by
  apply ne_of_toNat_ne
  obtain ⟨h1, _⟩ := isLower_toNat_bounds c h
  intro hcon
  rw [show ('\\').toNat = 92 from rfl] at hcon
  omega

theorem toUpper_ne_backslash (c : Char) (h : c.isLower = true) :
    c.toUpper ≠ '\\' := by
  apply ne_of_toNat_ne
  rw [toUpper_toNat_of_isLower c h, show ('\\').toNat = 92 from rfl]
  obtain ⟨h1, h2⟩ := isLower_toNat_bounds c h
  omega

/-- Modelled from the spec: Node's `path.normalize` (from the external
`path` module) is the first step of `normalizePath` (src/lint.ts line 58).
The spec's PathPolicy asks only for "a canonical separator form and
canonical drive-letter case", which the two replacement steps below
perform, so `normalize` itself - which additionally resolves "." and ".."
segments, immaterial to every property stated here - is modelled as the
identity. -/
def nodeNormalize (p : List Char) : List Char := p

/-- The first replacement of `normalizePath` (src/lint.ts line 59):
`.replace(/\\/g, "/")`. -/
def replaceBackslashes (p : List Char) : List Char :=
  p.map (fun c => if c = '\\' then '/' else c)

/-- The second replacement of `normalizePath` (src/lint.ts line 60):
`.replace(/^[a-z](?=:)/, c => c.toUpperCase())` - uppercase the first
character when it is an ASCII lowercase letter followed by a colon. -/
def upcaseDriveLetter (p : List Char) : List Char :=
  match p with
  | c :: d :: rest => if c.isLower ∧ d = ':' then c.toUpper :: d :: rest else p
  | _ => p

/-- `normalizePath` from src/lint.ts lines 56-61. -/
def normalizePath (p : List Char) : List Char :=
  upcaseDriveLetter (replaceBackslashes (nodeNormalize p))

/-- Modelled from the spec: `withoutPrefix` is imported from `./util`
(src/lint.ts line 12) and src/util.ts is not among the repository's files;
the spec says PathPolicy "computes the file path relative to the project
root".  It returns the remainder of `s` after the prefix `pre`, or `none`
(JavaScript `undefined`) when `pre` is not a prefix of `s`. -/
def withoutPrefix (s pre : List Char) : Option (List Char) :=
  if pre.isPrefixOf s then some (s.drop pre.length) else none

/-- Whether the first character is an ASCII digit: the final `\d` of the
regular expression of src/lint.ts line 67. -/
def firstIsDigit : List Char → Bool
  | [] => false
  | c :: _ => c.isDigit

/-- After the first digit of `\d+\.\d`: consume further digits, then
require a dot and a digit.  The digits are consumed greedily, which agrees
with the regex's backtracking search because "." is not a digit. -/
def digitsDotDigitAfterOne : List Char → Bool
  | [] => false
  | c :: rest =>
    if c.isDigit then digitsDotDigitAfterOne rest
    else c = '.' && firstIsDigit rest

/-- `\d+\.\d`: one or more digits, a dot, a digit. -/
def digitsDotDigit : List Char → Bool
  | [] => false
  | c :: rest => c.isDigit && digitsDotDigitAfterOne rest

/-- The test of the anchored regular expression `/^\/ts\d+\.\d/` of
src/lint.ts line 67. -/
def matchesTsVersionDir : List Char → Bool
  | '/' :: 't' :: 's' :: rest => digitsDotDigit rest
  | _ => false

/-- `isTypesVersionPath` from src/lint.ts lines 63-68: JavaScript's
`subdirPath && regex.test(subdirPath)` is false when `withoutPrefix`
returned `undefined` (and the empty remainder, also falsy in JavaScript,
fails the regex test anyway). -/
def isTypesVersionPath (fileName dirPath : List Char) : Bool :=
  match withoutPrefix (normalizePath fileName) (normalizePath dirPath) with
  | none => false
  | some subdirPath => matchesTsVersionDir subdirPath

theorem upcaseDriveLetter_cons_cons (a b : Char) (t : List Char) :
    upcaseDriveLetter (a :: b :: t)
      = if a.isLower ∧ b = ':' then a.toUpper :: b :: t else a :: b :: t := rfl

theorem backslash_not_mem_normalizePath (p : List Char) : '\\' ∉ normalizePath p := by
  have hmap : '\\' ∉ replaceBackslashes p := by
    intro hmem
    obtain ⟨y, _, hy⟩ := List.mem_map.1 hmem
    by_cases hb : y = '\\'
    · rw [if_pos hb] at hy
      exact absurd hy (by decide)
    · rw [if_neg hb] at hy
      exact hb hy
  unfold normalizePath nodeNormalize
  match hrb : replaceBackslashes p with
  | [] =>
    intro hmem
    simp [upcaseDriveLetter] at hmem
  | [c] =>
    rw [hrb] at hmap
    intro hmem
    simp only [upcaseDriveLetter] at hmem
    exact hmap hmem
  | c :: d :: rest =>
    rw [hrb] at hmap
    rw [upcaseDriveLetter_cons_cons]
    by_cases hcond : c.isLower ∧ d = ':'
    · rw [if_pos hcond]
      intro hmem
      rcases List.mem_cons.1 hmem with he | hm
      · exact toUpper_ne_backslash c hcond.1 he.symm
      · exact hmap (List.mem_cons_of_mem c hm)
    · rw [if_neg hcond]
      exact hmap

theorem normalizePath_drive_case (c : Char) (r : List Char) (h : c.isLower = true) :
    normalizePath (c :: ':' :: r) = normalizePath (c.toUpper :: ':' :: r) := by
  unfold normalizePath nodeNormalize replaceBackslashes
  simp only [List.map_cons]
  rw [if_neg (isLower_ne_backslash c h), if_neg (toUpper_ne_backslash c h),
    if_neg (show (':' : Char) ≠ '\\' by decide)]
  rw [upcaseDriveLetter_cons_cons, upcaseDriveLetter_cons_cons]
  rw [if_pos ⟨h, rfl⟩]
  rw [if_neg]
  intro hcon
  rw [toUpper_not_isLower c h] at hcon
  exact Bool.false_ne_true hcon.1

theorem isTypesVersionPath_drive_case (c : Char) (r d : List Char) (h : c.isLower = true) :
    isTypesVersionPath (c :: ':' :: r) d = isTypesVersionPath (c.toUpper :: ':' :: r) d
  ∧ isTypesVersionPath d (c :: ':' :: r) = isTypesVersionPath d (c.toUpper :: ':' :: r) := by
  unfold isTypesVersionPath
  rw [normalizePath_drive_case c r h]
  exact ⟨rfl, rfl⟩

/-- C6: `isTypesVersionPath` accepts `/project/ts3.8/index.d.ts` under root
`/project` and rejects `/project/index.d.ts` under the same root; before
comparing, `normalizePath` turns every backslash into a forward slash and
uppercases a leading lowercase DOS drive letter, so two paths that differ
only in the case of that drive letter are treated identically (as file or
as root). -/
theorem isTypesVersionPath_spec :
    isTypesVersionPath "/project/ts3.8/index.d.ts".data "/project".data = true
  ∧ isTypesVersionPath "/project/index.d.ts".data "/project".data = false
  ∧ (∀ p, '\\' ∉ normalizePath p)
  ∧ (∀ c r, c.isLower = true →
      normalizePath (c :: ':' :: r) = normalizePath (c.toUpper :: ':' :: r))
  ∧ (∀ c r d, c.isLower = true →
      isTypesVersionPath (c :: ':' :: r) d = isTypesVersionPath (c.toUpper :: ':' :: r) d
      ∧ isTypesVersionPath d (c :: ':' :: r) = isTypesVersionPath d (c.toUpper :: ':' :: r)) :=
  ⟨by decide, by decide, backslash_not_mem_normalizePath, normalizePath_drive_case,
    isTypesVersionPath_drive_case⟩

theorem isTypesVersionPath_spec_witness :
    isTypesVersionPath "c:/project/ts3.8/index.d.ts".data "C:/project".data = true :=
  by decide

/-- A rule entry of the configuration artifact (tslint's
`IConfigurationFile` rule map entry), with the severity field that
`getLintConfig` validates. -/
structure RuleCfg where
  ruleSeverity : String
deriving DecidableEq, Repr

/-- The configuration artifact as loaded by tslint's
`Configuration.findConfiguration(...).results` (external): a rule map,
modelled as an association list (first binding wins, as in a `Map`). -/
structure ConfigFile where
  rules : List (String × RuleCfg)
deriving DecidableEq, Repr

/-- One entry of `versionsToTest` (src/lint.ts line 122): a version name
and the path of that compiler version's installation. -/
structure VersionPath where
  versionName : String
  path : String
deriving DecidableEq, Repr

/-- `Options` of the expect rule (src/rules/expectRule, as used on
src/lint.ts line 123): the project descriptor path and the resolved
version list. -/
structure ExpectOptions where
  tsconfigPath : String
  versionsToTest : List VersionPath
deriving DecidableEq, Repr

/-- The configuration returned by `getLintConfig`: the loaded rule map
with the expect rule's `ruleArguments` slot overwritten (src/lint.ts line
124). -/
structure ResolvedConfig where
  rules : List (String × RuleCfg)
  expectRuleArguments : ExpectOptions
deriving DecidableEq, Repr

/-- The distinct failures of `getLintConfig` (src/lint.ts lines 101-127):
the `throw` of line 113 (config could not be loaded), the `throw` of line
118 (expect rule missing or not at error severity), and a failing `assert`
inside the call to `range` on line 122. -/
inductive ConfigErr where
  | loadError
  | misconfiguredRule
  | rangeError (e : RangeErr)
deriving DecidableEq, Repr

/-- `getLintConfig` from src/lint.ts lines 101-127.  The filesystem steps
(`pathExists`, the fallback to the packaged dtslint.json, and
`Configuration.findConfiguration`) are external; their outcome is the
`findConfigurationResults` argument - `none` when the load produced no
result.  `typeScriptPath` abstracts the external
`typeScriptPath(versionName, tsLocal)` of line 122 with `tsLocal` already
applied.  The code's `!expectRule || expectRule.ruleSeverity !== "error"`
throw is the two `misconfiguredRule` branches. -/
def getLintConfig (findConfigurationResults : Option ConfigFile)
    (tsconfigPath : String) (u : VersionUniverse) (minVersion maxVersion : String)
    (typeScriptPath : String → String) : Except ConfigErr ResolvedConfig :=
  match findConfigurationResults with
  | none => .error .loadError
  | some config =>
    match config.rules.lookup "expect" with
    | none => .error .misconfiguredRule
    | some expectRule =>
      if expectRule.ruleSeverity ≠ "error" then .error .misconfiguredRule
      else
        match range u minVersion maxVersion with
        | .error e => .error (.rangeError e)
        | .ok versions =>
          .ok ⟨config.rules,
            ⟨tsconfigPath, versions.map (fun v => ⟨v, typeScriptPath v⟩)⟩⟩

/-- A source file of the program built by `Linter.createProgram`
(external): its name, its text, and whether the program classifies it as a
default-library file. -/
structure SourceFile where
  fileName : List Char
  text : List Char
  isSourceFileDefaultLibrary : Bool
deriving DecidableEq, Repr

/-- The aggregate result of the external rule engine
(`linter.getResult()`, src/lint.ts line 51): a failure count and the
formatted output. -/
structure EngineResult where
  failureCount : Nat
  output : String

/-- The substring filter of src/lint.ts line 36. -/
def nodeModulesStr : List Char := "node_modules".data

/-- Whether `sub` occurs anywhere in `text`: JavaScript
`String.prototype.includes`. -/
def containsSubstr (sub text : List Char) : Bool :=
  (indexOfFrom sub text 0).isSome

/-- The column/line lookup behind `file.getLineAndCharacterOfPosition`
(external, from the TypeScript compiler API), modelled for LF line breaks:
count full lines before `pos` and the offset into the current line. -/
def lineColAux : List Char → Nat → Nat → Nat × Nat
  | [], line, col => (line, col)
  | c :: rest, line, col =>
    if c = '\n' then lineColAux rest (line + 1) 0 else lineColAux rest line (col + 1)

/-- Line and character of a position, as `{line, character}`. -/
def getLineAndCharacterOfPosition (text : List Char) (pos : Nat) : Nat × Nat :=
  lineColAux (text.take pos) 0 0

/-- `JSON.stringify(place)` for `place = {line, character}` (src/lint.ts
line 41). -/
def formatPlace (place : Nat × Nat) : String :=
  "\x7b\"line\":" ++ toString place.1 ++ ",\"character\":" ++ toString place.2 ++ "\x7d"

/-- The template string of src/lint.ts line 41:
`At ${fileName}:${JSON.stringify(place)}: ${message}`. -/
def formatViolation (fileName : List Char) (place : Nat × Nat) (message : String) : String :=
  "At " ++ String.mk fileName ++ ":" ++ formatPlace place ++ ": " ++ message

/-- The file loop of `lint` (src/lint.ts lines 32-49): skip
default-library files; scan files whose name lacks "node_modules" with the
content policies and short-circuit on the first violation; feed every
remaining file that survives the `isLatest`/`isTypesVersionPath` filter to
the external rule engine (`fed` accumulates them in iteration order). -/
def lintLoop (dirPath : List Char) (isLatest : Bool) :
    List SourceFile → List SourceFile → Except String (List SourceFile)
  | [], fed => .ok fed
  | file :: rest, fed =>
    if file.isSourceFileDefaultLibrary then lintLoop dirPath isLatest rest fed
    else
      match (if containsSubstr nodeModulesStr file.fileName then none
             else scanText file.text) with
      | some err =>
        .error (formatViolation file.fileName
          (getLineAndCharacterOfPosition file.text err.pos) err.message)
      | none =>
        if !isLatest || !isTypesVersionPath file.fileName dirPath then
          lintLoop dirPath isLatest rest (fed ++ [file])
        else
          lintLoop dirPath isLatest rest fed

/-- `lint` from src/lint.ts lines 14-53.  External collaborators appear as
arguments: `files` is what `lintProgram.getSourceFiles()` yields (in the
program's order), `findConfigurationResults` is the loaded configuration
artifact (the `expectOnly` flag of the source only changes which file is
loaded), and `engine` abstracts the accumulated `linter.lint(...)` calls
plus `linter.getResult()` - it receives exactly the files fed to the
linter, with the configuration fixed for the run.  The result is `.ok
none` for the source's `undefined` (no violations), `.ok (some s)` for a
report string, and `.error` when `getLintConfig` throws. -/
def lint (findConfigurationResults : Option ConfigFile) (tsconfigPath : String)
    (u : VersionUniverse) (minVersion maxVersion : String)
    (typeScriptPath : String → String) (files : List SourceFile)
    (dirPath : List Char) (isLatest : Bool)
    (engine : List SourceFile → EngineResult) : Except ConfigErr (Option String) :=
  match getLintConfig findConfigurationResults tsconfigPath u minVersion maxVersion
      typeScriptPath with
  | .error e => .error e
  | .ok _config =>
    match lintLoop dirPath isLatest files [] with
    | .error report => .ok (some report)
    | .ok fedFiles =>
      if (engine fedFiles).failureCount ≠ 0 then .ok (some (engine fedFiles).output)
      else .ok none

/-- C5: loading the lint configuration fails with the misconfigured-rule
error (the fatal throw of src/lint.ts line 118) whenever the "expect" rule
entry is absent or its severity is anything other than "error" - severity
"warning" in particular - and every configuration it does return carries
the "expect" rule at severity "error": the rule is never silently
downgraded. -/
theorem getLintConfig_expect_rule (findConfigurationResults : Option ConfigFile)
    (tsconfigPath : String) (u : VersionUniverse) (minV maxV : String)
    (tsp : String → String) :
    (∀ config, findConfigurationResults = some config →
      config.rules.lookup "expect" = none →
      getLintConfig findConfigurationResults tsconfigPath u minV maxV tsp
        = .error .misconfiguredRule)
  ∧ (∀ config r, findConfigurationResults = some config →
      config.rules.lookup "expect" = some r → r.ruleSeverity ≠ "error" →
      getLintConfig findConfigurationResults tsconfigPath u minV maxV tsp
        = .error .misconfiguredRule)
  ∧ (∀ rc, getLintConfig findConfigurationResults tsconfigPath u minV maxV tsp
        = .ok rc →
      ∃ config r, findConfigurationResults = some config
        ∧ rc.rules = config.rules
        ∧ rc.rules.lookup "expect" = some r
        ∧ r.ruleSeverity = "error") := by
  refine ⟨?_, ?_, ?_⟩
  · intro config hc hlook
    rw [hc]
    simp only [getLintConfig, hlook]
  · intro config r hc hlook hsev
    rw [hc]
    simp only [getLintConfig, hlook, if_pos hsev]
  · intro rc h
    match hcfg : findConfigurationResults with
    | none =>
      simp only [getLintConfig] at h
      exact Except.noConfusion h
    | some config =>
      match hlook : config.rules.lookup "expect" with
      | none =>
        simp only [getLintConfig, hlook] at h
        exact Except.noConfusion h
      | some r =>
        by_cases hsev : r.ruleSeverity ≠ "error"
        · simp only [getLintConfig, hlook, if_pos hsev] at h
          exact Except.noConfusion h
        · push_neg at hsev
          have hcond : ¬ (r.ruleSeverity ≠ "error") := by
            rw [hsev]
            exact fun hne => hne rfl
          match hr : range u minV maxV with
          | .error e =>
            simp only [getLintConfig, hlook, hr, if_neg hcond] at h
            exact Except.noConfusion h
          | .ok vs =>
            simp only [getLintConfig, hlook, hr, if_neg hcond, Except.ok.injEq] at h
            refine ⟨config, r, rfl, ?_, ?_, hsev⟩
            · rw [← h]
            · rw [← h]
              exact hlook

theorem getLintConfig_expect_rule_witness :
    getLintConfig (some ⟨[("expect", ⟨"warning"⟩)]⟩) "tsconfig.json" demoUniverse
      "4.0" "4.2" (fun v => v) = .error .misconfiguredRule :=
  (getLintConfig_expect_rule (some ⟨[("expect", ⟨"warning"⟩)]⟩) "tsconfig.json"
      demoUniverse "4.0" "4.2" (fun v => v)).2.1
    ⟨[("expect", ⟨"warning"⟩)]⟩ ⟨"warning"⟩ rfl rfl (by decide)

theorem lintLoop_clean (dirPath : List Char) (isLatest : Bool) :
    ∀ (files fed : List SourceFile),
      (∀ f ∈ files, f.isSourceFileDefaultLibrary = false →
        containsSubstr nodeModulesStr f.fileName = false → scanText f.text = none) →
      ∃ fedOut, lintLoop dirPath isLatest files fed = .ok fedOut := by
  intro files
  induction files with
  | nil =>
    intro fed _
    exact ⟨fed, rfl⟩
  | cons f rest ih =>
    intro fed hclean
    have hrest : ∀ g ∈ rest, g.isSourceFileDefaultLibrary = false →
        containsSubstr nodeModulesStr g.fileName = false → scanText g.text = none :=
      fun g hg => hclean g (List.mem_cons_of_mem f hg)
    by_cases hdl : f.isSourceFileDefaultLibrary
    · simp only [lintLoop, if_pos hdl]
      exact ih fed hrest
    · have hscan : (if containsSubstr nodeModulesStr f.fileName then none
          else scanText f.text) = none := by
        by_cases hnm : containsSubstr nodeModulesStr f.fileName
        · rw [if_pos hnm]
        · rw [if_neg hnm]
          exact hclean f (List.mem_cons_self f rest)
            (Bool.not_eq_true _ ▸ Bool.of_not_eq_true hdl)
            (Bool.of_not_eq_true hnm)
      simp only [lintLoop, if_neg hdl, hscan]
      by_cases hlat : (!isLatest || !isTypesVersionPath f.fileName dirPath) = true
      · rw [if_pos hlat]
        exact ih _ hrest
      · rw [if_neg hlat]
        exact ih _ hrest

/-- C8: a run over files none of which (outside default-library files and
files whose name contains "node_modules") contains a banned directive,
with a configuration that loads and validates, and an external rule engine
reporting zero failures, returns the no-violations sentinel: `undefined`
(`none`), not any formatted text. -/
theorem lint_no_violations (findConfigurationResults : Option ConfigFile)
    (tsconfigPath : String) (u : VersionUniverse) (minV maxV : String)
    (tsp : String → String) (files : List SourceFile) (dirPath : List Char)
    (isLatest : Bool) (engine : List SourceFile → EngineResult)
    (hcfg : ∃ rc, getLintConfig findConfigurationResults tsconfigPath u minV maxV tsp
      = .ok rc)
    (hclean : ∀ f ∈ files, f.isSourceFileDefaultLibrary = false →
      containsSubstr nodeModulesStr f.fileName = false → scanText f.text = none)
    (hengine : ∀ fs, (engine fs).failureCount = 0) :
    lint findConfigurationResults tsconfigPath u minV maxV tsp files dirPath
      isLatest engine = .ok none := by
  obtain ⟨rc, hrc⟩ := hcfg
  obtain ⟨fedOut, hloop⟩ := lintLoop_clean dirPath isLatest files [] hclean
  simp only [lint, hrc, hloop, hengine, ne_eq, not_true_eq_false, ite_false,
    not_false_eq_true, ite_true, if_neg, reduceCtorEq]

/-- The configuration artifact used by concrete runs: the "expect" rule
present at severity "error". -/
def demoConfigFile : ConfigFile := ⟨[("expect", ⟨"error"⟩)]⟩

/-- A declaration file with no banned directive. -/
def cleanDemoFile : SourceFile :=
  ⟨"index.d.ts".data, "export declare const x: number;".data, false⟩

theorem testNoTslintDisablesFrom_of_none {text : List Char} {i : Nat}
    (h : indexOfFrom tslintDisableStr text i = none) :
    testNoTslintDisablesFrom text i = none := by
  rw [testNoTslintDisablesFrom.eq_def]
  split
  · rfl
  · next pos hio =>
    rw [h] at hio
    exact Option.noConfusion hio

theorem scanText_eq_none_of_no_occurrences {text : List Char}
    (h1 : indexOfFrom tsIgnoreStr text 0 = none)
    (h2 : indexOfFrom tslintDisableStr text 0 = none) :
    scanText text = none := by
  have hti : testNoTsIgnore text = none := by
    unfold testNoTsIgnore
    rw [h1]
  unfold scanText
  rw [hti]
  exact testNoTslintDisablesFrom_of_none h2

theorem lint_no_violations_witness :
    lint (some demoConfigFile) "tsconfig.json" demoUniverse "4.0" "4.2" (fun v => v)
      [cleanDemoFile] "/types/foo".data true (fun _ => ⟨0, ""⟩) = .ok none :=
  lint_no_violations (some demoConfigFile) "tsconfig.json" demoUniverse "4.0" "4.2"
    (fun v => v) [cleanDemoFile] "/types/foo".data true (fun _ => ⟨0, ""⟩)
    ⟨_, rfl⟩
    (by
      intro f hf h1 h2
      rw [List.mem_singleton] at hf
      subst hf
      exact scanText_eq_none_of_no_occurrences (by decide) (by decide))
    (fun _ => rfl)

theorem lintLoop_error_at (dirPath : List Char) (isLatest : Bool) (f : SourceFile)
    (err : Err) (hdl : f.isSourceFileDefaultLibrary = false)
    (hnm : containsSubstr nodeModulesStr f.fileName = false)
    (hscan : scanText f.text = some err) :
    ∀ (pre fed : List SourceFile),
      (∀ g ∈ pre, g.isSourceFileDefaultLibrary = false →
        containsSubstr nodeModulesStr g.fileName = false → scanText g.text = none) →
      ∀ post, lintLoop dirPath isLatest (pre ++ f :: post) fed
        = .error (formatViolation f.fileName
            (getLineAndCharacterOfPosition f.text err.pos) err.message) := by
  intro pre
  induction pre with
  | nil =>
    intro fed _ post
    have hdl2 : ¬ (f.isSourceFileDefaultLibrary = true) := by
      rw [hdl]
      exact Bool.false_ne_true
    have hif : (if containsSubstr nodeModulesStr f.fileName then none
        else scanText f.text) = some err := by
      rw [if_neg (by rw [hnm]; exact Bool.false_ne_true), hscan]
    simp only [List.nil_append, lintLoop, if_neg hdl2, hif]
  | cons g rest ih =>
    intro fed hclean post
    have hg := hclean g (List.mem_cons_self g rest)
    have hrest : ∀ k ∈ rest, k.isSourceFileDefaultLibrary = false →
        containsSubstr nodeModulesStr k.fileName = false → scanText k.text = none :=
      fun k hk => hclean k (List.mem_cons_of_mem g hk)
    rw [List.cons_append]
    by_cases hgdl : g.isSourceFileDefaultLibrary
    · simp only [lintLoop, if_pos hgdl]
      exact ih fed hrest post
    · have hgscan : (if containsSubstr nodeModulesStr g.fileName then none
          else scanText g.text) = none := by
        by_cases hgnm : containsSubstr nodeModulesStr g.fileName
        · rw [if_pos hgnm]
        · rw [if_neg hgnm]
          exact hg (Bool.of_not_eq_true hgdl) (Bool.of_not_eq_true hgnm)
      simp only [lintLoop, if_neg hgdl, hgscan]
      by_cases hlat : (!isLatest || !isTypesVersionPath g.fileName dirPath) = true
      · rw [if_pos hlat]
        exact ih _ hrest post
      · rw [if_neg hlat]
        exact ih _ hrest post

/-- The comment form of the directive, as the claim writes it. -/
def commentTsIgnoreStr : List Char := "// @ts-ignore".data

/-- C2 (amended): a run over a program in which some file carries
`// @ts-ignore` at character offset 40 - reached with every earlier file
free of violations, itself neither a default-library file nor named with
"node_modules", and with no earlier "ts-ignore" occurrence in its text -
returns a report whose location corresponds to offset 44, the position of
the `ts-ignore` token itself (4 characters into `// @ts-ignore`), with the
fixed ts-ignore message, regardless of the rule engine's structural
failures.  The claim's "location corresponds to offset 40" does not hold:
`testNoTsIgnore` reports `text.indexOf("ts-ignore")`, which is 44. -/
theorem lint_tsIgnore_at_offset_40 (findConfigurationResults : Option ConfigFile)
    (tsconfigPath : String) (u : VersionUniverse) (minV maxV : String)
    (tsp : String → String) (pre post : List SourceFile) (f : SourceFile)
    (dirPath : List Char) (isLatest : Bool) (engine : List SourceFile → EngineResult)
    (hcfg : ∃ rc, getLintConfig findConfigurationResults tsconfigPath u minV maxV tsp
      = .ok rc)
    (hpre : ∀ g ∈ pre, g.isSourceFileDefaultLibrary = false →
      containsSubstr nodeModulesStr g.fileName = false → scanText g.text = none)
    (hdl : f.isSourceFileDefaultLibrary = false)
    (hnm : containsSubstr nodeModulesStr f.fileName = false)
    (hdir : occursAt commentTsIgnoreStr f.text 40)
    (hfirst : ∀ q, q < 44 → ¬ occursAt tsIgnoreStr f.text q) :
    lint findConfigurationResults tsconfigPath u minV maxV tsp (pre ++ f :: post)
      dirPath isLatest engine
      = .ok (some (formatViolation f.fileName
          (getLineAndCharacterOfPosition f.text 44) tsIgnoreMessage)) := by
  have h44 : occursAt tsIgnoreStr f.text 44 := by
    obtain ⟨t, ht⟩ := hdir
    refine ⟨t, ?_⟩
    have hdd : f.text.drop 44 = (f.text.drop 40).drop 4 := by
      rw [List.drop_drop]
    rw [hdd, ← ht, List.drop_append_of_le_length (by decide)]
    rfl
  have hscan : scanText f.text = some ⟨44, tsIgnoreMessage⟩ := by
    unfold scanText
    rw [testNoTsIgnore_eq_some h44 hfirst]
  obtain ⟨rc, hrc⟩ := hcfg
  have hloop := lintLoop_error_at dirPath isLatest f ⟨44, tsIgnoreMessage⟩ hdl hnm
    hscan pre [] hpre post
  simp only [lint, hrc, hloop]

/-- The concrete file of C2: forty filler characters, then `// @ts-ignore`
starting exactly at offset 40 (so the `ts-ignore` token starts at 44). -/
def tsIgnoreDemoFile : SourceFile :=
  ⟨"index.d.ts".data, List.replicate 40 'x' ++ "// @ts-ignore".data, false⟩

theorem lint_tsIgnore_at_offset_40_witness :
    occursAt commentTsIgnoreStr tsIgnoreDemoFile.text 40
  ∧ lint (some demoConfigFile) "tsconfig.json" demoUniverse "4.0" "4.2" (fun v => v)
      [tsIgnoreDemoFile] "/types/foo".data false
      (fun _ => ⟨1, "structural failure output"⟩)
      = .ok (some (formatViolation tsIgnoreDemoFile.fileName
          (getLineAndCharacterOfPosition tsIgnoreDemoFile.text 44) tsIgnoreMessage)) :=
  ⟨by decide,
    lint_tsIgnore_at_offset_40 (some demoConfigFile) "tsconfig.json" demoUniverse
      "4.0" "4.2" (fun v => v) [] [] tsIgnoreDemoFile "/types/foo".data false
      (fun _ => ⟨1, "structural failure output"⟩) ⟨_, rfl⟩
      (by intro g hg h1 h2; exact absurd hg (List.not_mem_nil g)) rfl (by decide)
      (by decide) (by decide)⟩

/-- C2's counterexample to the claimed offset: with `// @ts-ignore` at
offset 40, the run's report carries the line/character of offset 44 (the
`ts-ignore` token), and that differs from the line/character of offset 40,
so the reported location does not correspond to offset 40. -/
theorem lint_tsIgnore_offset_40_counterexample :
    occursAt commentTsIgnoreStr tsIgnoreDemoFile.text 40
  ∧ lint (some demoConfigFile) "tsconfig.json" demoUniverse "4.0" "4.2" (fun v => v)
      [tsIgnoreDemoFile] "/types/foo".data false
      (fun _ => ⟨1, "structural failure output"⟩)
      = .ok (some (formatViolation "index.d.ts".data (0, 44) tsIgnoreMessage))
  ∧ getLineAndCharacterOfPosition tsIgnoreDemoFile.text 40 = (0, 40)
  ∧ getLineAndCharacterOfPosition tsIgnoreDemoFile.text 44 = (0, 44)
  ∧ formatViolation "index.d.ts".data (0, 44) tsIgnoreMessage
      ≠ formatViolation "index.d.ts".data (0, 40) tsIgnoreMessage :=
  ⟨by decide, rfl, by decide, by decide, by decide⟩

/-- Ten qualified `tslint:disable-next-line` occurrences (25 characters
each, newline included) followed by one bare `tslint:disable` at offset
250. -/
def tenQualifiedText : List Char :=
  (List.replicate 10 "tslint:disable-next-line\n".data).flatten
    ++ "tslint:disable".data

set_option maxRecDepth 10000 in
theorem testNoTslintDisables_qualified_vs_bare_witness :
    bareTslintDisableAt tenQualifiedText 250
  ∧ (∀ q, q < 250 → ¬ bareTslintDisableAt tenQualifiedText q)
  ∧ testNoTslintDisables tenQualifiedText = some ⟨250, tslintDisableMessage⟩ :=
  ⟨by decide, by decide,
    (testNoTslintDisables_qualified_vs_bare tenQualifiedText).2 250 (by decide)
      (by decide)⟩
